import Mathlib

/-!
Verification of the LLeX client-side Stream Consumer
(`ChatWindow.tsx`: `handleLine`, `pushStatus`, `fetchStream` read loop),
the App-level stream-completion handler (`App.tsx`), and the Ask-request
shapes (`ChatWindow.tsx` fetch body, `ApiService.askQuestion`).

JS strings are embedded as `List Char`.  JSON values are embedded as the
inductive `Json`; a missing property (JS `undefined`) is `Option.none`.
Platform primitives used by the code (`JSON.parse`, `JSON.stringify`,
`TextDecoder` with `stream: true`, `String.prototype.split`/`trim`) are
modelled explicitly below; JSON numbers are modelled as integers
(floating-point formatting is outside the scope of every property
considered here).
-/

namespace LLex

/-- JS whitespace (the ASCII part of `\s` / `String.prototype.trim`). -/
def isJsWs (c : Char) : Bool :=
  c = ' ' || c = '\t' || c = '\n' || c = '\x0d' || c = '\x0b' || c = '\x0c'

/-- `String.prototype.trim`: drop leading and trailing whitespace. -/
def jsTrim (l : List Char) : List Char :=
  ((l.dropWhile isJsWs).reverse.dropWhile isJsWs).reverse

/-- JSON values as produced by `JSON.parse` (numbers restricted to integers). -/
inductive Json where
  | null : Json
  | bool : Bool → Json
  | num : Int → Json
  | str : List Char → Json
  | arr : List Json → Json
  | obj : List (List Char × Json) → Json
  deriving Repr

instance : Inhabited Json := ⟨Json.null⟩

instance : Nonempty Json := ⟨Json.null⟩

/-- Decimal digits of a natural number, fuel-based. -/
def natDigitsAux : Nat → Nat → List Char → List Char
  | 0, n, acc => Char.ofNat (48 + n % 10) :: acc
  | fuel + 1, n, acc =>
    if n < 10 then Char.ofNat (48 + n) :: acc
    else natDigitsAux fuel (n / 10) (Char.ofNat (48 + n % 10) :: acc)

def natToChars (n : Nat) : List Char := natDigitsAux n n []

def intToChars : Int → List Char
  | Int.ofNat n => natToChars n
  | Int.negSucc n => '-' :: natToChars (n + 1)

def hexDigit (n : Nat) : Char :=
  if n < 10 then Char.ofNat (48 + n) else Char.ofNat (87 + n)

/-- `JSON.stringify` escaping of one character inside a string literal. -/
def escapeChar (c : Char) : List Char :=
  if c = '\"' then '\\' :: '\"' :: []
  else if c = '\\' then '\\' :: '\\' :: []
  else if c = '\n' then '\\' :: 'n' :: []
  else if c = '\x0d' then '\\' :: 'r' :: []
  else if c = '\t' then '\\' :: 't' :: []
  else if c = '\x08' then '\\' :: 'b' :: []
  else if c = '\x0c' then '\\' :: 'f' :: []
  else if c.toNat < 32 then
    '\\' :: 'u' :: '0' :: '0' :: hexDigit (c.toNat / 16) :: hexDigit (c.toNat % 16) :: []
  else [c]

def quoteStr (s : List Char) : List Char :=
  '\"' :: (s.map escapeChar).flatten ++ ['\"']

def commaSep : List (List Char) → List Char
  | [] => []
  | [x] => x
  | x :: y :: rest => x ++ ',' :: commaSep (y :: rest)

/-- `JSON.stringify` (on the integer-number fragment of JSON). -/
def jsonStringify : Json → List Char
  | .null => 'n' :: 'u' :: 'l' :: 'l' :: []
  | .bool true => 't' :: 'r' :: 'u' :: 'e' :: []
  | .bool false => 'f' :: 'a' :: 'l' :: 's' :: 'e' :: []
  | .num i => intToChars i
  | .str s => quoteStr s
  | .arr xs => '[' :: commaSep (xs.attach.map (fun p => jsonStringify p.1)) ++ [']']
  | .obj fs =>
    '\x7b' :: commaSep (fs.attach.map (fun p => quoteStr p.1.1 ++ ':' :: jsonStringify p.1.2))
      ++ ['\x7d']
termination_by j => sizeOf j
decreasing_by
  · have := List.sizeOf_lt_of_mem p.2
    simp
    omega
  · have h2 := List.sizeOf_lt_of_mem p.2
    rcases p with ⟨⟨a, b⟩, hm⟩
    simp at h2 ⊢
    omega

/-- JS truthiness of a possibly-`undefined` value (`none` = `undefined`). -/
def jsTruthy : Option Json → Bool
  | none => false
  | some .null => false
  | some (.bool b) => b
  | some (.num i) => decide (i ≠ 0)
  | some (.str s) => decide (s ≠ [])
  | some (.arr _) => true
  | some (.obj _) => true

/-- Object member lookup; `JSON.parse` lets the last duplicate key win. -/
def lookupField (fs : List (List Char × Json)) (k : List Char) : Option Json :=
  match fs with
  | [] => none
  | (k2, v) :: rest =>
    match lookupField rest k with
    | some r => some r
    | none => if k2 = k then some v else none

/-- JS property read `data.k` for non-null `data`: `undefined` off objects. -/
def fieldOf (data : Json) (k : List Char) : Option Json :=
  match data with
  | .obj fs => lookupField fs k
  | _ => none

/-- Consumer view state: the running answer (`latestAnswer`) and the
ordered status/error label list (`statusMessages`). -/
structure ConsumerState where
  answer : List Char
  statuses : List (List Char)
  deriving Repr, DecidableEq

def initConsumer : ConsumerState := ⟨[], []⟩

/-- Text derived from a status/error payload in `pushStatus`: strings pass
through, other defined values go through `JSON.stringify`, `undefined`
becomes the empty string. -/
def statusTextOf : Option Json → List Char
  | some (.str s) => s
  | some j => jsonStringify j
  | none => []

/-- Rendered label: `` isError ? `❌ ${text}` : text ``. -/
def statusEntry (isError : Bool) (text : List Char) : List Char :=
  if isError then '❌' :: ' ' :: text else text

/-- `pushStatus` from `ChatWindow.tsx`: skip when the derived text is
empty, otherwise append one entry, with an error mark for errors. -/
def pushStatus (st : ConsumerState) (message : Option Json) (isError : Bool) : ConsumerState :=
  let text := statusTextOf message
  if text = [] then st
  else { st with statuses := st.statuses ++ [statusEntry isError text] }

/-- `typeof data.payload === "string" ? data.payload : ""`. -/
def payloadString : Option Json → List Char
  | some (.str s) => s
  | _ => []

def eventKey : List Char := 'e' :: 'v' :: 'e' :: 'n' :: 't' :: []
def typeKey : List Char := 't' :: 'y' :: 'p' :: 'e' :: []
def payloadKey : List Char := 'p' :: 'a' :: 'y' :: 'l' :: 'o' :: 'a' :: 'd' :: []
def textKind : List Char := 't' :: 'e' :: 'x' :: 't' :: []
def statusKind : List Char := 's' :: 't' :: 'a' :: 't' :: 'u' :: 's' :: []
def errorKind : List Char := 'e' :: 'r' :: 'r' :: 'o' :: 'r' :: []

/-- `data.payload`. -/
def payloadOf (data : Json) : Option Json := fieldOf data payloadKey

/-- `data.event || data.type` (for non-null `data`). -/
def eventTypeOf (data : Json) : Option Json :=
  let ev := fieldOf data eventKey
  if jsTruthy ev then ev else fieldOf data typeKey

/-- The `switch (eventType)` of `handleLine`; `===` matches strings only. -/
def dispatchEvent (st : ConsumerState) (data : Json) : ConsumerState :=
  match eventTypeOf data with
  | some (.str s) =>
    if s = textKind then
      { st with answer := st.answer ++ payloadString (payloadOf data) }
    else if s = statusKind then pushStatus st (payloadOf data) false
    else if s = errorKind then pushStatus st (payloadOf data) true
    else st
  | _ => st

/-- The body of `handleLine`'s `try` block after `JSON.parse` succeeded.
Reading `data.event` on `null` throws a TypeError which the surrounding
`catch` turns into a no-op. -/
def applyParsed (st : ConsumerState) (data : Json) : ConsumerState :=
  match data with
  | .null => st
  | _ => dispatchEvent st data

/-- The string content of a possibly-undefined value, when it is one. -/
def strKindOf : Option Json → Option (List Char)
  | some (.str s) => some s
  | _ => none

/-- The event kind a decoded record is dispatched on, when dispatch can
reach a labelled `case` (a string kind on a non-null record). -/
def eventKindOf (data : Json) : Option (List Char) :=
  match data with
  | .null => none
  | _ => strKindOf (eventTypeOf data)

/-! ### JSON.parse -/

/-- JSON token whitespace (RFC 8259). -/
def isJsonWs (c : Char) : Bool :=
  c = ' ' || c = '\t' || c = '\n' || c = '\x0d'

def skipWs (l : List Char) : List Char := l.dropWhile isJsonWs

def isDigit (c : Char) : Bool := 48 ≤ c.toNat && c.toNat ≤ 57

def isHexDigitCh (c : Char) : Bool :=
  isDigit c || (97 ≤ c.toNat && c.toNat ≤ 102) || (65 ≤ c.toNat && c.toNat ≤ 70)

def hexVal (c : Char) : Nat :=
  if isDigit c then c.toNat - 48
  else if 97 ≤ c.toNat then c.toNat - 87
  else c.toNat - 55

/-- Require `lit` as a literal at the head of the input. -/
def dropLit : List Char → List Char → Option (List Char)
  | [], l => some l
  | c :: cs, d :: ds => if c = d then dropLit cs ds else none
  | _ :: _, [] => none

/-- Body of a JSON string literal after the opening quote, handling the
escape sequences `JSON.parse` accepts and rejecting raw control chars. -/
def parseStrBody : Nat → List Char → Option (List Char × List Char)
  | 0, _ => none
  | _ + 1, [] => none
  | fuel + 1, c :: rest =>
    if c = '\"' then some ([], rest)
    else if c = '\\' then
      match rest with
      | [] => none
      | e :: rest2 =>
        let cont (ch : Char) (l : List Char) : Option (List Char × List Char) :=
          match parseStrBody fuel l with
          | some (s, r) => some (ch :: s, r)
          | none => none
        if e = '\"' then cont '\"' rest2
        else if e = '\\' then cont '\\' rest2
        else if e = '/' then cont '/' rest2
        else if e = 'b' then cont '\x08' rest2
        else if e = 'f' then cont '\x0c' rest2
        else if e = 'n' then cont '\n' rest2
        else if e = 'r' then cont '\x0d' rest2
        else if e = 't' then cont '\t' rest2
        else if e = 'u' then
          match rest2 with
          | h1 :: h2 :: h3 :: h4 :: rest3 =>
            if isHexDigitCh h1 && isHexDigitCh h2 && isHexDigitCh h3 && isHexDigitCh h4 then
              cont (Char.ofNat (((hexVal h1 * 16 + hexVal h2) * 16 + hexVal h3) * 16 + hexVal h4)) rest3
            else none
          | _ => none
        else none
    else if c.toNat < 32 then none
    else
      match parseStrBody fuel rest with
      | some (s, r) => some (c :: s, r)
      | none => none

/-- Digit run at the head of the input. -/
def takeDigits : List Char → (List Char × List Char)
  | [] => ([], [])
  | c :: rest =>
    if isDigit c then
      let (ds, r) := takeDigits rest
      (c :: ds, r)
    else ([], c :: rest)

def digitsToNat (ds : List Char) : Nat :=
  ds.foldl (fun acc c => acc * 10 + (c.toNat - 48)) 0

/-- Integer JSON number literal (`-? digits`, no leading zeros); fractional
and exponent literals are outside the integer-valued model. -/
def parseNum (l : List Char) : Option (Json × List Char) :=
  let (neg, l2) :=
    match l with
    | '-' :: rest => (true, rest)
    | _ => (false, l)
  match takeDigits l2 with
  | ([], _) => none
  | (d :: ds, r) =>
    if d = '0' && ds ≠ [] then none
    else
      let n : Int := Int.ofNat (digitsToNat (d :: ds))
      some (Json.num (if neg then -n else n), r)

mutual

/-- One JSON value (after leading whitespace), returning the rest. -/
def parseValue : Nat → List Char → Option (Json × List Char)
  | 0, _ => none
  | fuel + 1, input =>
    match skipWs input with
    | [] => none
    | c :: rest =>
      if c = 'n' then
        match dropLit ('u' :: 'l' :: 'l' :: []) rest with
        | some r => some (Json.null, r)
        | none => none
      else if c = 't' then
        match dropLit ('r' :: 'u' :: 'e' :: []) rest with
        | some r => some (Json.bool true, r)
        | none => none
      else if c = 'f' then
        match dropLit ('a' :: 'l' :: 's' :: 'e' :: []) rest with
        | some r => some (Json.bool false, r)
        | none => none
      else if c = '\"' then
        match parseStrBody (rest.length + 1) rest with
        | some (s, r) => some (Json.str s, r)
        | none => none
      else if c = '[' then
        match skipWs rest with
        | ']' :: r => some (Json.arr [], r)
        | l2 =>
          match parseElems fuel l2 with
          | some (xs, r) => some (Json.arr xs, r)
          | none => none
      else if c = '\x7b' then
        match skipWs rest with
        | '\x7d' :: r => some (Json.obj [], r)
        | l2 =>
          match parseMembers fuel l2 with
          | some (fs, r) => some (Json.obj fs, r)
          | none => none
      else if c = '-' || isDigit c then parseNum (c :: rest)
      else none

/-- Non-empty comma-separated element list of an array, incl. closing `]`. -/
def parseElems : Nat → List Char → Option (List Json × List Char)
  | 0, _ => none
  | fuel + 1, input =>
    match parseValue fuel input with
    | none => none
    | some (j, rest) =>
      match skipWs rest with
      | ']' :: r => some ([j], r)
      | ',' :: r =>
        match parseElems fuel r with
        | some (xs, r2) => some (j :: xs, r2)
        | none => none
      | _ => none

/-- Non-empty member list of an object, incl. closing brace. -/
def parseMembers : Nat → List Char → Option (List (List Char × Json) × List Char)
  | 0, _ => none
  | fuel + 1, input =>
    match skipWs input with
    | '\"' :: rest =>
      match parseStrBody (rest.length + 1) rest with
      | none => none
      | some (k, rest2) =>
        match skipWs rest2 with
        | ':' :: rest3 =>
          match parseValue fuel rest3 with
          | none => none
          | some (v, rest4) =>
            match skipWs rest4 with
            | '\x7d' :: r => some ([(k, v)], r)
            | ',' :: r =>
              match parseMembers fuel r with
              | some (fs, r2) => some ((k, v) :: fs, r2)
              | none => none
            | _ => none
        | _ => none
    | _ => none

end

/-- `JSON.parse`: one value surrounded by whitespace, nothing trailing. -/
def parseJson (l : List Char) : Option Json :=
  match parseValue (2 * l.length + 2) l with
  | some (j, rest) => if skipWs rest = [] then some j else none
  | none => none

/-! ### handleLine and the line-splitting read loop -/

def dataMark : List Char := 'd' :: 'a' :: 't' :: 'a' :: ':' :: []

/-- The record text `handleLine` hands to `JSON.parse`: the trimmed line
with an optional leading `data:` framing marker (and the whitespace after
it, per `^data:\\s*`) stripped. -/
def cleanedLine (rawLine : List Char) : List Char :=
  let line := jsTrim rawLine
  if dataMark.isPrefixOf line then (line.drop 5).dropWhile isJsWs
  else line

/-- `handleLine` from `ChatWindow.tsx`: trim, skip blank lines, strip an
optional `data:` framing marker, `JSON.parse`, then dispatch; parse
failures (and the TypeError on `null`) are logged and discarded. -/
def handleLine (st : ConsumerState) (rawLine : List Char) : ConsumerState :=
  if jsTrim rawLine = [] then st
  else
    match parseJson (cleanedLine rawLine) with
    | none => st
    | some d => applyParsed st d

/-- `text.split("\n")`: always returns at least one (possibly empty) piece. -/
def splitNl : List Char → List (List Char)
  | [] => [[]]
  | c :: rest =>
    if c = '\n' then [] :: splitNl rest
    else
      match splitNl rest with
      | l :: ls => (c :: l) :: ls
      | [] => [[c]]

/-! ### Incremental UTF-8 decoding (`TextDecoder` with `stream: true`) -/

/-- UTF-8 bytes of one unicode scalar value. -/
def encodeCharUtf8 (c : Char) : List Nat :=
  let v := c.toNat
  if v < 0x80 then [v]
  else if v < 0x800 then [0xC0 + v / 64, 0x80 + v % 64]
  else if v < 0x10000 then [0xE0 + v / 4096, 0x80 + v / 64 % 64, 0x80 + v % 64]
  else [0xF0 + v / 262144, 0x80 + v / 4096 % 64, 0x80 + v / 64 % 64, 0x80 + v % 64]

def encodeUtf8 (s : List Char) : List Nat := (s.map encodeCharUtf8).flatten

/-- Sequence length announced by a leading byte. -/
def utf8Len (b : Nat) : Nat :=
  if b < 0xC0 then 1 else if b < 0xE0 then 2 else if b < 0xF0 then 3 else 4

theorem utf8Len_pos (b : Nat) : 1 ≤ utf8Len b := by
  unfold utf8Len
  split_ifs <;> omega

/-- Scalar value of one complete sequence (well-formed input). -/
def decodeCharUtf8 : List Nat → Char
  | [b] => Char.ofNat b
  | [b, b1] => Char.ofNat ((b - 0xC0) * 64 + (b1 - 0x80))
  | [b, b1, b2] => Char.ofNat (((b - 0xE0) * 64 + (b1 - 0x80)) * 64 + (b2 - 0x80))
  | [b, b1, b2, b3] =>
    Char.ofNat ((((b - 0xF0) * 64 + (b1 - 0x80)) * 64 + (b2 - 0x80)) * 64 + (b3 - 0x80))
  | _ => Char.ofNat 0

/-- Greedy incremental decode: every complete sequence becomes a char, an
incomplete trailing sequence is retained as the new pending bytes rather
than decoded prematurely. -/
def utf8DecodeLoop : List Nat → List Char × List Nat
  | [] => ([], [])
  | b :: rest =>
    if utf8Len b ≤ rest.length + 1 then
      let r := utf8DecodeLoop ((b :: rest).drop (utf8Len b))
      (decodeCharUtf8 ((b :: rest).take (utf8Len b)) :: r.1, r.2)
    else ([], b :: rest)
termination_by l => l.length
decreasing_by
  have := utf8Len_pos b
  simp
  omega

/-! ### The `fetchStream` read loop -/

/-- Local state of one `fetchStream` invocation: the decoder's pending
bytes, the not-yet-terminated line fragment (`buffer`), and the consumer
view (`latestAnswer` / `statusMessages`). -/
structure StreamState where
  pending : List Nat
  buffer : List Char
  cs : ConsumerState
  deriving Repr, DecidableEq

def initStream : StreamState := ⟨[], [], initConsumer⟩

/-- One loop iteration for a received byte range: incremental decode,
append to `buffer`, split on newlines, `pop` the trailing fragment back
into `buffer`, handle each complete line in order. -/
def processRange (st : StreamState) (bytes : List Nat) : StreamState :=
  let dec := utf8DecodeLoop (st.pending ++ bytes)
  let parts := splitNl (st.buffer ++ dec.1)
  { pending := dec.2,
    buffer := parts.getLastD [],
    cs := parts.dropLast.foldl handleLine st.cs }

/-- After the loop: `if (buffer.trim()) handleLine(buffer)`. -/
def flushBuffer (st : StreamState) : StreamState :=
  if jsTrim st.buffer = [] then st
  else { st with cs := handleLine st.cs st.buffer }

/-- Whether the cleanup-set `isCancelled` flag is visible at observation
point `i` (the `while` condition checks, then the `finally`). -/
def obsCancelled (cancelAt : Option Nat) (i : Nat) : Bool :=
  match cancelAt with
  | none => false
  | some k => decide (k ≤ i)

/-- Result of one `fetchStream` run: final local state, number of
`reader.read()` calls issued, and the completion-callback activity. -/
structure RunResult where
  state : StreamState
  reads : Nat
  completions : Nat
  completionAnswer : Option (List Char)
  deriving Repr, DecidableEq

/-- The `while (!isCancelled)` read loop; returns the state, the read
count, and the observation index at loop exit.  An empty `ranges` rest
means the next read reports `done`. -/
def readLoop (st : StreamState) (ranges : List (List Nat)) (i : Nat)
    (cancelAt : Option Nat) (reads : Nat) : StreamState × Nat × Nat :=
  if obsCancelled cancelAt i then (st, reads, i)
  else
    match ranges with
    | [] => (st, reads + 1, i)
    | r :: rest => readLoop (processRange st r) rest (i + 1) cancelAt (reads + 1)

/-- The successful-response path of `fetchStream`: read loop, final
flush, and the `finally` block, which fires the completion callback with
`latestAnswer` iff cancellation has not been observed. -/
def fetchStreamRun (ranges : List (List Nat)) (cancelAt : Option Nat) : RunResult :=
  let res := readLoop initStream ranges 0 cancelAt 0
  let st2 := flushBuffer res.1
  let fired := !obsCancelled cancelAt (res.2.2 + 1)
  { state := st2,
    reads := res.2.1,
    completions := if fired then 1 else 0,
    completionAnswer := if fired then some st2.cs.answer else none }

/-! ### App-level completion handler and Ask-request shapes -/

structure ChatMsg where
  role : List Char
  content : List Char
  deriving Repr, DecidableEq

def assistantRole : List Char := 'a' :: 's' :: 's' :: 'i' :: 's' :: 't' :: 'a' :: 'n' :: 't' :: []

structure AppState where
  messages : List ChatMsg
  activeQuestion : Option (List Char)
  deriving Repr, DecidableEq

/-- `handleStreamComplete` from `App.tsx`: append one assistant message
when the answer trims non-empty, then clear the active question. -/
def handleStreamComplete (answer : List Char) (st : AppState) : AppState :=
  { messages :=
      if jsTrim answer = [] then st.messages
      else st.messages ++ [⟨assistantRole, answer⟩],
    activeQuestion := none }

inductive SearchMode where
  | general : SearchMode
  | law : SearchMode
  deriving Repr, DecidableEq

def searchModeText : SearchMode → List Char
  | .general => 'g' :: 'e' :: 'n' :: 'e' :: 'r' :: 'a' :: 'l' :: []
  | .law => 'l' :: 'a' :: 'w' :: []

/-- `QueryRequest` from `types/index.ts`. -/
structure QueryRequest where
  question : List Char
  search_mode : SearchMode

def questionKey : List Char := 'q' :: 'u' :: 'e' :: 's' :: 't' :: 'i' :: 'o' :: 'n' :: []
def userIdKey : List Char := 'u' :: 's' :: 'e' :: 'r' :: '_' :: 'i' :: 'd' :: []
def searchModeKey : List Char :=
  's' :: 'e' :: 'a' :: 'r' :: 'c' :: 'h' :: '_' :: 'm' :: 'o' :: 'd' :: 'e' :: []
def postMethod : List Char := 'P' :: 'O' :: 'S' :: 'T' :: []

/-- An HTTP call to the Ask endpoint: method plus JSON body members. -/
structure AskCall where
  method : List Char
  body : List (List Char × Json)

/-- The fetch issued by `ChatWindow.tsx`:
`POST` of `{ user_id: "linkcampus", question: activeQuestion }`. -/
def chatWindowAskCall (activeQuestion : List Char) : AskCall :=
  ⟨postMethod,
   [(userIdKey, Json.str ('l' :: 'i' :: 'n' :: 'k' :: 'c' :: 'a' :: 'm' :: 'p' :: 'u' :: 's' :: [])),
    (questionKey, Json.str activeQuestion)]⟩

/-- The fetch issued by `ApiService.askQuestion`: `POST` of
`JSON.stringify(request)` for a `QueryRequest`. -/
def apiServiceAskCall (r : QueryRequest) : AskCall :=
  ⟨postMethod,
   [(questionKey, Json.str r.question),
    (searchModeKey, Json.str (searchModeText r.search_mode))]⟩

/-- Modelled from the spec (§6 Ask): the request is a `POST`, its JSON
body has a string `question`, every member key is one of `question`,
`user_id`, `search_mode`, and `search_mode` (when present) is the string
"general" or "law". -/
def SpecValidAskCall (c : AskCall) : Prop :=
  c.method = postMethod ∧
  (∃ s, lookupField c.body questionKey = some (Json.str s)) ∧
  (∀ k v, (k, v) ∈ c.body → k = questionKey ∨ k = userIdKey ∨ k = searchModeKey) ∧
  (∀ v, lookupField c.body searchModeKey = some v →
    v = Json.str (searchModeText SearchMode.general) ∨
    v = Json.str (searchModeText SearchMode.law))

/-! ## Consumer dispatch lemmas -/

/-- Declarative answer contribution of one decoded record. -/
def textAddition (data : Json) : List Char :=
  if eventKindOf data = some textKind then payloadString (payloadOf data) else []

/-- Declarative status-list contribution of one decoded record. -/
def statusAddition (data : Json) : List (List Char) :=
  match eventKindOf data with
  | some k =>
    if k = textKind then []
    else if k = statusKind then
      if statusTextOf (payloadOf data) = [] then [] else [statusEntry false (statusTextOf (payloadOf data))]
    else if k = errorKind then
      if statusTextOf (payloadOf data) = [] then [] else [statusEntry true (statusTextOf (payloadOf data))]
    else []
  | none => []

theorem pushStatus_answer (st : ConsumerState) (m : Option Json) (e : Bool) :
    (pushStatus st m e).answer = st.answer := by
  unfold pushStatus
  dsimp only
  split <;> rfl

theorem pushStatus_statuses (st : ConsumerState) (m : Option Json) (e : Bool) :
    (pushStatus st m e).statuses =
      st.statuses ++ (if statusTextOf m = [] then [] else [statusEntry e (statusTextOf m)]) := by
  unfold pushStatus
  dsimp only
  split <;> simp_all

theorem statusKind_ne_textKind : statusKind ≠ textKind := by decide
theorem errorKind_ne_textKind : errorKind ≠ textKind := by decide
theorem errorKind_ne_statusKind : errorKind ≠ statusKind := by decide

theorem dispatchEvent_answer (st : ConsumerState) (data : Json) :
    (dispatchEvent st data).answer =
      st.answer ++
        (if strKindOf (eventTypeOf data) = some textKind then payloadString (payloadOf data)
         else []) := by
  unfold dispatchEvent
  rcases h : eventTypeOf data with _ | j
  · simp [strKindOf, h]
  · cases j with
    | str s =>
      simp only [h, strKindOf, Option.some.injEq]
      by_cases h1 : s = textKind
      · simp [h1]
      · by_cases h2 : s = statusKind
        · simp [h1, h2, pushStatus_answer, statusKind_ne_textKind]
        · by_cases h3 : s = errorKind
          · simp [h1, h2, h3, pushStatus_answer, errorKind_ne_textKind, errorKind_ne_statusKind]
          · simp [h1, h2, h3]
    | null => simp [strKindOf, h]
    | bool b => simp [strKindOf, h]
    | num i => simp [strKindOf, h]
    | arr xs => simp [strKindOf, h]
    | obj fs => simp [strKindOf, h]

theorem dispatchEvent_statuses (st : ConsumerState) (data : Json) :
    (dispatchEvent st data).statuses =
      st.statuses ++
        (match strKindOf (eventTypeOf data) with
         | some k =>
           if k = textKind then []
           else if k = statusKind then
             if statusTextOf (payloadOf data) = [] then []
             else [statusEntry false (statusTextOf (payloadOf data))]
           else if k = errorKind then
             if statusTextOf (payloadOf data) = [] then []
             else [statusEntry true (statusTextOf (payloadOf data))]
           else []
         | none => []) := by
  unfold dispatchEvent
  rcases h : eventTypeOf data with _ | j
  · simp [strKindOf, h]
  · cases j with
    | str s =>
      simp only [h, strKindOf]
      by_cases h1 : s = textKind
      · simp [h1]
      · by_cases h2 : s = statusKind
        · simp [h1, h2, pushStatus_statuses, statusKind_ne_textKind]
        · by_cases h3 : s = errorKind
          · simp [h1, h2, h3, pushStatus_statuses, errorKind_ne_textKind, errorKind_ne_statusKind]
          · simp [h1, h2, h3]
    | null => simp [strKindOf, h]
    | bool b => simp [strKindOf, h]
    | num i => simp [strKindOf, h]
    | arr xs => simp [strKindOf, h]
    | obj fs => simp [strKindOf, h]

theorem applyParsed_answer (st : ConsumerState) (data : Json) :
    (applyParsed st data).answer = st.answer ++ textAddition data := by
  cases data <;> simp only [applyParsed]
  case null => simp [textAddition, eventKindOf]
  all_goals (rw [dispatchEvent_answer]; simp [textAddition, eventKindOf])

theorem applyParsed_statuses (st : ConsumerState) (data : Json) :
    (applyParsed st data).statuses = st.statuses ++ statusAddition data := by
  cases data <;> simp only [applyParsed]
  case null => simp [statusAddition, eventKindOf]
  all_goals (rw [dispatchEvent_statuses]; simp [statusAddition, eventKindOf])

theorem natDigitsAux_ne_nil (fuel n : Nat) (acc : List Char) : natDigitsAux fuel n acc ≠ [] := by
  induction fuel generalizing n acc with
  | zero => simp [natDigitsAux]
  | succ f ih =>
    unfold natDigitsAux
    split
    · simp
    · exact ih _ _

theorem jsonStringify_ne_nil (j : Json) : jsonStringify j ≠ [] := by
  cases j with
  | null => simp [jsonStringify]
  | bool b => cases b <;> simp [jsonStringify]
  | num i =>
    cases i with
    | ofNat n =>
      simpa [jsonStringify, intToChars, natToChars] using natDigitsAux_ne_nil n n []
    | negSucc n => simp [jsonStringify, intToChars]
  | str s => simp [jsonStringify, quoteStr]
  | arr xs => simp [jsonStringify]
  | obj fs => simp [jsonStringify]

theorem statusTextOf_of_not_str (j : Json) (h : ∀ s, j ≠ Json.str s) :
    statusTextOf (some j) = jsonStringify j := by
  cases j with
  | str s => exact absurd rfl (h s)
  | null => rfl
  | bool b => rfl
  | num i => rfl
  | arr xs => rfl
  | obj fs => rfl

/-! ## Claim theorems: record application (C1, C6, C7, C10) -/

/-- C1: feeding any sequence of decoded records to the consumer makes the
final answer the ordered concatenation of the `text` payloads, in arrival
order and nothing else; `status`/`source`/`error` records never change
the answer string. -/
theorem consumerAnswer_eq_orderedTextPayloads (ds : List Json) (st : ConsumerState) :
    (ds.foldl applyParsed st).answer =
      st.answer ++
        ((ds.filter (fun d => eventKindOf d = some textKind)).map
          (fun d => payloadString (payloadOf d))).flatten := by
  induction ds generalizing st with
  | nil => simp
  | cons d ds ih =>
    rw [List.foldl_cons, ih, applyParsed_answer]
    by_cases h : eventKindOf d = some textKind
    · simp [List.filter_cons, h, textAddition, List.append_assoc]
    · simp [List.filter_cons, h, textAddition]

/-- A decoded `status` record whose payload is the empty string. -/
def emptyStatusChunk : Json :=
  Json.obj [(eventKey, Json.str statusKind), (payloadKey, Json.str [])]

/-- C6 counterexample: a decoded Chunk of kind `status` whose payload is
the empty string appends no entry at all to the status/error list, so the
consumer does not append exactly one entry per status chunk. -/
theorem statusChunk_emptyPayload_appends_nothing :
    eventKindOf emptyStatusChunk = some statusKind ∧
    (applyParsed initConsumer emptyStatusChunk).statuses = [] ∧
    ∀ e : List Char,
      (applyParsed initConsumer emptyStatusChunk).statuses ≠ initConsumer.statuses ++ [e] := by
  refine ⟨rfl, rfl, ?_⟩
  intro e h
  simp [initConsumer] at h
  exact absurd h.symm (List.cons_ne_nil e [])

/-- C6 (amended): a decoded `status` or `error` chunk appends exactly one
entry to the status/error list, in arrival order and leaving all earlier
entries untouched, unless the text derived from its payload is empty
(empty-string or missing payload), in which case it appends nothing. -/
theorem statusOrError_appends_atMostOne (st : ConsumerState) (d : Json) (k : List Char)
    (hk : eventKindOf d = some k) (hse : k = statusKind ∨ k = errorKind) :
    (applyParsed st d).statuses = st.statuses ++ statusAddition d ∧
    (statusAddition d).length ≤ 1 ∧
    ((statusAddition d).length = 1 ↔ statusTextOf (payloadOf d) ≠ []) := by
  refine ⟨applyParsed_statuses st d, ?_, ?_⟩ <;>
    (rcases hse with h | h <;> subst h <;>
      simp only [statusAddition, hk, statusKind_ne_textKind, errorKind_ne_textKind,
        errorKind_ne_statusKind, if_false, if_pos rfl, reduceIte] <;>
      split_ifs with ht <;> simp [ht])

/-- A decoded `status` record with payload `"ok"`. -/
def statusOkChunk : Json :=
  Json.obj [(eventKey, Json.str statusKind), (payloadKey, Json.str ('o' :: 'k' :: []))]

theorem statusOrError_appends_atMostOne_witness :
    (eventKindOf statusOkChunk = some statusKind ∧
      (statusKind = statusKind ∨ statusKind = errorKind)) ∧
    ((applyParsed initConsumer statusOkChunk).statuses =
        initConsumer.statuses ++ statusAddition statusOkChunk ∧
      (statusAddition statusOkChunk).length ≤ 1 ∧
      ((statusAddition statusOkChunk).length = 1 ↔
        statusTextOf (payloadOf statusOkChunk) ≠ [])) :=
  ⟨⟨rfl, Or.inl rfl⟩,
   statusOrError_appends_atMostOne initConsumer statusOkChunk statusKind rfl (Or.inl rfl)⟩

/-- C7: a decoded record whose event kind is outside `text`/`status`/
`error` (such as `source` or an unknown kind) changes neither the answer
nor the status/error list: unknown kinds are ignored, not fatal. -/
theorem unknownKind_ignored (st : ConsumerState) (d : Json) (k : List Char)
    (hk : eventKindOf d = some k)
    (h1 : k ≠ textKind) (h2 : k ≠ statusKind) (h3 : k ≠ errorKind) :
    applyParsed st d = st := by
  have ha := applyParsed_answer st d
  have hs := applyParsed_statuses st d
  have ht : textAddition d = [] := by
    unfold textAddition
    rw [hk]
    simp [h1]
  have hsa : statusAddition d = [] := by
    unfold statusAddition
    rw [hk]
    simp [h1, h2, h3]
  rw [ht, List.append_nil] at ha
  rw [hsa, List.append_nil] at hs
  calc applyParsed st d = ⟨(applyParsed st d).answer, (applyParsed st d).statuses⟩ := rfl
    _ = ⟨st.answer, st.statuses⟩ := by rw [ha, hs]
    _ = st := rfl

def sourceKind : List Char := 's' :: 'o' :: 'u' :: 'r' :: 'c' :: 'e' :: []

/-- A decoded `source` record carrying a citation object. -/
def sourceChunk : Json :=
  Json.obj [(eventKey, Json.str sourceKind),
            (payloadKey, Json.obj [(('t' :: 'i' :: 't' :: 'l' :: 'e' :: []), Json.str ('t' :: []))])]

theorem unknownKind_ignored_witness :
    (eventKindOf sourceChunk = some sourceKind ∧
      sourceKind ≠ textKind ∧ sourceKind ≠ statusKind ∧ sourceKind ≠ errorKind) ∧
    applyParsed initConsumer sourceChunk = initConsumer :=
  ⟨⟨rfl, by decide, by decide, by decide⟩,
   unknownKind_ignored initConsumer sourceChunk sourceKind rfl (by decide) (by decide) (by decide)⟩

/-- C10: the consumer is total over unexpected payload types: a `text`
record with a non-string payload contributes nothing to the answer, and a
`status`/`error` record with a non-string (defined) payload has it
serialized via `JSON.stringify` and appended as one entry (such a
serialization is never empty, so the entry is never skipped). -/
theorem nonStringPayload_total (st : ConsumerState) (d : Json) :
    (eventKindOf d = some textKind → (∀ s, payloadOf d ≠ some (Json.str s)) →
      (applyParsed st d).answer = st.answer) ∧
    (∀ j, eventKindOf d = some statusKind → payloadOf d = some j → (∀ s, j ≠ Json.str s) →
      (applyParsed st d).statuses = st.statuses ++ [jsonStringify j]) ∧
    (∀ j, eventKindOf d = some errorKind → payloadOf d = some j → (∀ s, j ≠ Json.str s) →
      (applyParsed st d).statuses = st.statuses ++ ['❌' :: ' ' :: jsonStringify j]) := by
  refine ⟨?_, ?_, ?_⟩
  · intro hk hp
    rw [applyParsed_answer]
    unfold textAddition
    rw [hk, if_pos rfl]
    rcases hpp : payloadOf d with _ | j
    · simp [payloadString]
    · cases j with
      | str s => exact absurd hpp (hp s)
      | null => simp [payloadString]
      | bool b => simp [payloadString]
      | num i => simp [payloadString]
      | arr xs => simp [payloadString]
      | obj fs => simp [payloadString]
  · intro j hk hp hnstr
    rw [applyParsed_statuses]
    unfold statusAddition
    rw [hk]
    simp only [statusKind_ne_textKind, if_false, if_pos rfl, reduceIte]
    rw [hp, statusTextOf_of_not_str j hnstr]
    simp [jsonStringify_ne_nil, statusEntry]
  · intro j hk hp hnstr
    rw [applyParsed_statuses]
    unfold statusAddition
    rw [hk]
    simp only [errorKind_ne_textKind, errorKind_ne_statusKind, if_false, if_pos rfl, reduceIte]
    rw [hp, statusTextOf_of_not_str j hnstr]
    simp [jsonStringify_ne_nil, statusEntry]

/-- A decoded `text` record whose payload is the number `7`. -/
def textNumChunk : Json :=
  Json.obj [(eventKey, Json.str textKind), (payloadKey, Json.num 7)]

/-- A decoded `status` record whose payload is the empty array. -/
def statusArrChunk : Json :=
  Json.obj [(eventKey, Json.str statusKind), (payloadKey, Json.arr [])]

theorem nonStringPayload_total_witness :
    (eventKindOf textNumChunk = some textKind ∧
      (applyParsed initConsumer textNumChunk).answer = initConsumer.answer) ∧
    (eventKindOf statusArrChunk = some statusKind ∧
      payloadOf statusArrChunk = some (Json.arr []) ∧
      (applyParsed initConsumer statusArrChunk).statuses =
        initConsumer.statuses ++ [jsonStringify (Json.arr [])]) := by
  refine ⟨⟨rfl, ?_⟩, ⟨rfl, rfl, ?_⟩⟩
  · exact (nonStringPayload_total initConsumer textNumChunk).1 rfl
      (fun s h => Json.noConfusion (Option.some.inj h))
  · exact (nonStringPayload_total initConsumer statusArrChunk).2.1 (Json.arr []) rfl rfl
      (fun s h => Json.noConfusion h)

/-! ## Claim theorems: malformed records (C3) -/

theorem handleLine_of_decode_fail (st : ConsumerState) (raw : List Char)
    (h : parseJson (cleanedLine raw) = none) : handleLine st raw = st := by
  unfold handleLine
  by_cases hb : jsTrim raw = []
  · simp [hb]
  · rw [if_neg hb, h]

/-- C3: a record line that fails to decode is discarded without touching
the consumer state, so inserting one syntactically invalid line anywhere
between valid records yields exactly the same final state as leaving it
out, and the line handler is total (no exception escapes). -/
theorem invalidLine_discarded (st : ConsumerState) (pre post : List (List Char))
    (raw : List Char) (h : parseJson (cleanedLine raw) = none) :
    (pre ++ raw :: post).foldl handleLine st = (pre ++ post).foldl handleLine st := by
  rw [List.foldl_append, List.foldl_append, List.foldl_cons,
    handleLine_of_decode_fail _ _ h]

def validTextLine : List Char :=
  '\x7b' :: '\"' :: 'e' :: 'v' :: 'e' :: 'n' :: 't' :: '\"' :: ':' :: '\"' :: 't' :: 'e' :: 'x' :: 't' :: '\"' :: ',' ::
  '\"' :: 'p' :: 'a' :: 'y' :: 'l' :: 'o' :: 'a' :: 'd' :: '\"' :: ':' :: '\"' :: 'a' :: '\"' :: '\x7d' :: []

def validStatusLine : List Char :=
  '\x7b' :: '\"' :: 'e' :: 'v' :: 'e' :: 'n' :: 't' :: '\"' :: ':' :: '\"' :: 's' :: 't' :: 'a' :: 't' :: 'u' :: 's' :: '\"' :: ',' ::
  '\"' :: 'p' :: 'a' :: 'y' :: 'l' :: 'o' :: 'a' :: 'd' :: '\"' :: ':' :: '\"' :: 'o' :: 'k' :: '\"' :: '\x7d' :: []

def invalidLine : List Char := '\x7b' :: 'o' :: 'o' :: 'p' :: 's' :: []

theorem invalidLine_discarded_witness :
    parseJson (cleanedLine invalidLine) = none ∧
    ([validTextLine] ++ invalidLine :: [validStatusLine]).foldl handleLine initConsumer =
      ([validTextLine] ++ [validStatusLine]).foldl handleLine initConsumer :=
  ⟨rfl, invalidLine_discarded initConsumer [validTextLine] [validStatusLine] invalidLine rfl⟩

/-! ## Claim theorems: completion handler (C9) -/

theorem jsTrim_eq_nil_iff (l : List Char) : jsTrim l = [] ↔ ∀ c ∈ l, isJsWs c = true := by
  unfold jsTrim
  rw [List.reverse_eq_nil_iff, List.dropWhile_eq_nil_iff]
  constructor
  · intro h c hc
    have hl : c ∈ l.takeWhile isJsWs ++ l.dropWhile isJsWs := by
      rw [List.takeWhile_append_dropWhile]
      exact hc
    rcases List.mem_append.mp hl with h1 | h2
    · exact List.mem_takeWhile_imp h1
    · exact h c (List.mem_reverse.mpr h2)
  · intro h c hc
    have h2 : c ∈ l.dropWhile isJsWs := List.mem_reverse.mp hc
    refine h c ?_
    have hl := List.takeWhile_append_dropWhile isJsWs l
    rw [← hl]
    exact List.mem_append.mpr (Or.inr h2)

/-- C9: when the completion callback fires with accumulated answer `ans`,
the app appends exactly one assistant message containing `ans` iff `ans`
has at least one non-whitespace character; an all-whitespace completion
leaves the message list unchanged; in both cases the active question is
cleared. -/
theorem streamComplete_appends_iff (ans : List Char) (st : AppState) :
    ((handleStreamComplete ans st).messages = st.messages ++ [⟨assistantRole, ans⟩] ↔
      ∃ c ∈ ans, isJsWs c = false) ∧
    ((handleStreamComplete ans st).messages = st.messages ↔ ∀ c ∈ ans, isJsWs c = true) ∧
    (handleStreamComplete ans st).activeQuestion = none := by
  unfold handleStreamComplete
  by_cases hnil : jsTrim ans = []
  · have hall := (jsTrim_eq_nil_iff ans).mp hnil
    rw [if_pos hnil]
    refine ⟨⟨fun habs => absurd habs.symm (by simp), ?_⟩, ⟨fun _ => hall, fun _ => rfl⟩, rfl⟩
    rintro ⟨c, hc, hw⟩
    rw [hall c hc] at hw
    exact absurd hw (by simp)
  · have hex : ∃ c ∈ ans, isJsWs c = false := by
      have h2 := hnil
      rw [jsTrim_eq_nil_iff] at h2
      push_neg at h2
      simpa using h2
    rw [if_neg hnil]
    refine ⟨⟨fun _ => hex, fun _ => rfl⟩, ⟨fun habs => absurd habs (by simp), ?_⟩, rfl⟩
    intro hall
    exact absurd ((jsTrim_eq_nil_iff ans).mpr hall) hnil

/-! ## Claim theorems: Ask request shape (C8) -/

/-- C8: both client call sites of the Ask endpoint issue a `POST` whose
JSON body has a string `question`, whose keys are drawn only from
`question`/`user_id`/`search_mode`, and whose `search_mode`, when
present, is the string "general" or "law". -/
theorem askRequests_wellFormed (q : List Char) (r : QueryRequest) :
    SpecValidAskCall (chatWindowAskCall q) ∧ SpecValidAskCall (apiServiceAskCall r) := by
  constructor
  · refine ⟨rfl, ⟨q, ?_⟩, ?_, ?_⟩
    · rfl
    · intro k v hm
      rcases List.mem_cons.mp hm with h1 | h1
      · exact Or.inr (Or.inl (congrArg Prod.fst h1))
      · rcases List.mem_cons.mp h1 with h2 | h2
        · exact Or.inl (congrArg Prod.fst h2)
        · simp at h2
    · intro v hv
      exact Option.noConfusion hv
  · obtain ⟨qq, m⟩ := r
    refine ⟨rfl, ⟨qq, rfl⟩, ?_, ?_⟩
    · intro k v hm
      rcases List.mem_cons.mp hm with h1 | h1
      · exact Or.inl (congrArg Prod.fst h1)
      · rcases List.mem_cons.mp h1 with h2 | h2
        · exact Or.inr (Or.inr (congrArg Prod.fst h2))
        · simp at h2
    · intro v hv
      cases m with
      | general => exact Or.inl (Option.some.inj hv).symm
      | law => exact Or.inr (Option.some.inj hv).symm

/-! ## Claim theorems: read-loop termination and cancellation (C4, C5) -/

theorem readLoop_none (ranges : List (List Nat)) :
    ∀ (st : StreamState) (i reads : Nat),
      readLoop st ranges i none reads =
        (ranges.foldl processRange st, reads + ranges.length + 1, i + ranges.length) := by
  induction ranges with
  | nil =>
    intro st i reads
    simp [readLoop, obsCancelled]
  | cons r rest ih =>
    intro st i reads
    rw [readLoop]
    simp only [obsCancelled, Bool.false_eq_true, if_false, List.foldl_cons, reduceIte]
    rw [ih]
    simp [Prod.ext_iff]
    omega

/-- C5: when the transport reports end-of-stream on a never-cancelled
run, the consumer performs exactly one final flush of the buffered
fragment through the record-handling step and reports the resulting
running answer to the caller as the completed result. -/
theorem endOfStream_flushes_and_reports (ranges : List (List Nat)) :
    fetchStreamRun ranges none =
      { state := flushBuffer (ranges.foldl processRange initStream),
        reads := ranges.length + 1,
        completions := 1,
        completionAnswer :=
          some ((flushBuffer (ranges.foldl processRange initStream)).cs.answer) } := by
  simp [fetchStreamRun, readLoop_none, obsCancelled]

theorem readLoop_cancel (k : Nat) (ranges : List (List Nat)) :
    ∀ (st : StreamState) (i reads : Nat),
      (readLoop st ranges i (some k) reads).2.1 ≤ reads + (k - i) ∧
      (k ≤ i + ranges.length + 1 → k ≤ (readLoop st ranges i (some k) reads).2.2 + 1) := by
  induction ranges with
  | nil =>
    intro st i reads
    by_cases h : k ≤ i
    · constructor
      · simp [readLoop, obsCancelled, h]
      · intro _
        simp [readLoop, obsCancelled, h]
        omega
    · constructor
      · simp [readLoop, obsCancelled, h]
        omega
      · intro hk
        simp only [List.length_nil, Nat.add_zero] at hk
        simp [readLoop, obsCancelled, h]
        omega
  | cons rr rest ih =>
    intro st i reads
    by_cases h : k ≤ i
    · constructor
      · simp [readLoop, obsCancelled, h]
      · intro _
        simp [readLoop, obsCancelled, h]
        omega
    · have hrec := ih (processRange st rr) (i + 1) (reads + 1)
      rw [readLoop]
      simp only [obsCancelled, h, decide_eq_true_eq, if_false, reduceIte]
      constructor
      · calc (readLoop (processRange st rr) rest (i + 1) (some k) (reads + 1)).2.1
            ≤ reads + 1 + (k - (i + 1)) := hrec.1
          _ ≤ reads + (k - i) := by omega
      · intro hk
        simp only [List.length_cons] at hk
        exact hrec.2 (by omega)

/-- C4: once cancellation is observed at suspension point `k`, the loop
issues no further reads (at most `k` in total) and, when cancellation
arrives while the stream is still in flight, the completion callback for
the abandoned stream never fires; a run fires at most one completion. -/
theorem cancellation_stops_reads_and_completion (ranges : List (List Nat)) (k : Nat) :
    (fetchStreamRun ranges (some k)).reads ≤ k ∧
    (k ≤ ranges.length + 1 → (fetchStreamRun ranges (some k)).completions = 0) ∧
    (∀ c : Option Nat, (fetchStreamRun ranges c).completions ≤ 1) := by
  have h := readLoop_cancel k ranges initStream 0 0
  refine ⟨?_, ?_, ?_⟩
  · have h1 := h.1
    simp only [fetchStreamRun]
    omega
  · intro hk
    have h2 := h.2 (by omega)
    simp only [fetchStreamRun, obsCancelled]
    simp [h2]
  · intro c
    simp only [fetchStreamRun]
    split <;> simp

theorem cancellation_stops_reads_and_completion_witness :
    2 ≤ ([[104], [105], [106]] : List (List Nat)).length + 1 ∧
    (fetchStreamRun [[104], [105], [106]] (some 2)).reads ≤ 2 ∧
    (fetchStreamRun [[104], [105], [106]] (some 2)).completions = 0 ∧
    (fetchStreamRun [[104], [105], [106]] (some 42)).completions ≤ 1 :=
  ⟨by decide,
   (cancellation_stops_reads_and_completion [[104], [105], [106]] 2).1,
   (cancellation_stops_reads_and_completion [[104], [105], [106]] 2).2.1 (by decide),
   (cancellation_stops_reads_and_completion [[104], [105], [106]] 2).2.2 (some 42)⟩

/-! ## Claim C2: byte-level fragmentation invariance

The development relates the byte-range-driven loop state to a function of
the total decoded text alone.  `nlSplit` fuses `split("\n")` with the
`pop` of the trailing fragment; `feedBuf` describes how a retained
fragment merges into the next split. -/

/-- Complete lines and trailing fragment of a text, in one pass. -/
def nlSplit : List Char → List (List Char) × List Char
  | [] => ([], [])
  | c :: rest =>
    let r := nlSplit rest
    if c = '\n' then ([] :: r.1, r.2)
    else
      match r.1 with
      | [] => ([], c :: r.2)
      | l :: ls => ((c :: l) :: ls, r.2)

/-- Prepend a retained fragment to the first line of a later split. -/
def feedBuf (t : List Char) (r : List (List Char) × List Char) :
    List (List Char) × List Char :=
  match r.1 with
  | [] => ([], t ++ r.2)
  | l :: ls => ((t ++ l) :: ls, r.2)

theorem splitNl_ne_nil (s : List Char) : splitNl s ≠ [] := by
  cases s with
  | nil => simp [splitNl]
  | cons c rest =>
    unfold splitNl
    split
    · simp
    · split <;> simp

theorem splitNl_cons_nl (rest : List Char) : splitNl ('\n' :: rest) = [] :: splitNl rest := by
  simp [splitNl]

theorem splitNl_cons_ne (c : Char) (rest l : List Char) (ls : List (List Char))
    (hc : c ≠ '\n') (h : splitNl rest = l :: ls) :
    splitNl (c :: rest) = (c :: l) :: ls := by
  unfold splitNl
  rw [if_neg hc, h]

theorem nlSplit_cons_nl (rest : List Char) :
    nlSplit ('\n' :: rest) = ([] :: (nlSplit rest).1, (nlSplit rest).2) := by
  simp [nlSplit]

theorem nlSplit_cons_ne_of_nil (c : Char) (rest : List Char) (hc : c ≠ '\n')
    (h : (nlSplit rest).1 = []) :
    nlSplit (c :: rest) = ([], c :: (nlSplit rest).2) := by
  simp only [nlSplit, if_neg hc, h]

theorem nlSplit_cons_ne_of_cons (c : Char) (rest l : List Char)
    (ls : List (List Char)) (hc : c ≠ '\n') (h : (nlSplit rest).1 = l :: ls) :
    nlSplit (c :: rest) = ((c :: l) :: ls, (nlSplit rest).2) := by
  simp only [nlSplit, if_neg hc, h]

theorem nlSplit_eq_splitNl (s : List Char) :
    nlSplit s = ((splitNl s).dropLast, (splitNl s).getLastD []) := by
  induction s with
  | nil => simp [nlSplit, splitNl]
  | cons c rest ih =>
    by_cases hc : c = '\n'
    · subst hc
      rw [splitNl_cons_nl, nlSplit_cons_nl, ih]
      cases h : splitNl rest with
      | nil => exact absurd h (splitNl_ne_nil rest)
      | cons l ls => simp
    · cases h : splitNl rest with
      | nil => exact absurd h (splitNl_ne_nil rest)
      | cons l ls =>
        rw [splitNl_cons_ne c rest l ls hc h]
        have h1 : (nlSplit rest).1 = (l :: ls).dropLast := by rw [ih, h]
        have h2 : (nlSplit rest).2 = (l :: ls).getLastD [] := by rw [ih, h]
        cases ls with
        | nil =>
          rw [nlSplit_cons_ne_of_nil c rest hc (by simpa using h1), h2]
          simp
        | cons l2 ls2 =>
          rw [nlSplit_cons_ne_of_cons c rest l (l2 :: ls2).dropLast hc
            (by simpa using h1), h2]
          simp [List.getLastD_cons]

theorem nlSplit_append (a b : List Char) :
    nlSplit (a ++ b) =
      ((nlSplit a).1 ++ (feedBuf (nlSplit a).2 (nlSplit b)).1,
        (feedBuf (nlSplit a).2 (nlSplit b)).2) := by
  induction a with
  | nil =>
    simp only [List.nil_append, nlSplit, feedBuf]
    cases hb : nlSplit b with
    | mk lsb tb =>
      cases lsb with
      | nil => simp
      | cons p ps => simp
  | cons c a ih =>
    simp only [List.cons_append]
    by_cases hc : c = '\n'
    · subst hc
      rw [nlSplit_cons_nl, nlSplit_cons_nl, ih]
      simp
    · cases ha : (nlSplit a).1 with
      | nil =>
        rw [nlSplit_cons_ne_of_nil c a hc ha]
        have hab := ih
        rw [ha] at hab
        simp only [List.nil_append] at hab
        simp only [feedBuf] at hab ⊢
        cases hb : (nlSplit b).1 with
        | nil =>
          rw [hb] at hab
          simp only at hab
          rw [nlSplit_cons_ne_of_nil c (a ++ b) hc (by rw [hab])]
          rw [hab]
          simp
        | cons p ps =>
          rw [hb] at hab
          simp only at hab
          rw [nlSplit_cons_ne_of_cons c (a ++ b) ((nlSplit a).2 ++ p) ps hc (by rw [hab])]
          rw [hab]
          simp
      | cons l ls =>
        rw [nlSplit_cons_ne_of_cons c a l ls hc ha]
        have hab := ih
        rw [ha] at hab
        simp only [List.cons_append] at hab
        rw [nlSplit_cons_ne_of_cons c (a ++ b) l
          (ls ++ (feedBuf (nlSplit a).2 (nlSplit b)).1) hc (by rw [hab])]
        rw [hab]
        simp only [feedBuf]
        simp

theorem nlSplit_no_newline (t : List Char) (h : '\n' ∉ t) : nlSplit t = ([], t) := by
  induction t with
  | nil => rfl
  | cons c rest ih =>
    have hc : c ≠ '\n' := fun hh => h (hh ▸ List.mem_cons_self c rest)
    have hrest : '\n' ∉ rest := fun hh => h (List.mem_cons_of_mem c hh)
    rw [nlSplit_cons_ne_of_nil c rest hc (by rw [ih hrest]), ih hrest]

theorem nlSplit_buf_no_newline (s : List Char) : '\n' ∉ (nlSplit s).2 := by
  induction s with
  | nil => simp [nlSplit]
  | cons c rest ih =>
    by_cases hc : c = '\n'
    · subst hc
      rw [nlSplit_cons_nl]
      exact ih
    · cases h : (nlSplit rest).1 with
      | nil =>
        rw [nlSplit_cons_ne_of_nil c rest hc h]
        intro hm
        rcases List.mem_cons.mp hm with h1 | h1
        · exact hc h1.symm
        · exact ih h1
      | cons l ls =>
        rw [nlSplit_cons_ne_of_cons c rest l ls hc h]
        exact ih


/-! ### UTF-8 round trip and incremental decoding -/

theorem charToNat_lt (c : Char) : c.toNat < 1114112 := by
  rcases c.valid with h | ⟨_, h⟩
  · have h2 := @UInt32.toNat_lt_of_lt c.val 55296 (by decide) h
    exact Nat.lt_trans h2 (by decide)
  · exact @UInt32.toNat_lt_of_lt c.val 1114112 (by decide) h

theorem encodeCharUtf8_shape (c : Char) :
    ∃ b bs, encodeCharUtf8 c = b :: bs ∧ utf8Len b = bs.length + 1 := by
  have hv := charToNat_lt c
  unfold encodeCharUtf8
  by_cases h1 : c.toNat < 128
  · refine ⟨c.toNat, [], by rw [if_pos h1], ?_⟩
    unfold utf8Len
    rw [if_pos (by omega)]
    rfl
  · by_cases h2 : c.toNat < 2048
    · refine ⟨192 + c.toNat / 64, [128 + c.toNat % 64], by rw [if_neg h1, if_pos h2], ?_⟩
      unfold utf8Len
      rw [if_neg (by omega), if_pos (by omega)]
      rfl
    · by_cases h3 : c.toNat < 65536
      · refine ⟨224 + c.toNat / 4096, [128 + c.toNat / 64 % 64, 128 + c.toNat % 64],
          by rw [if_neg h1, if_neg h2, if_pos h3], ?_⟩
        unfold utf8Len
        rw [if_neg (by omega), if_neg (by omega), if_pos (by omega)]
        rfl
      · refine ⟨240 + c.toNat / 262144,
          [128 + c.toNat / 4096 % 64, 128 + c.toNat / 64 % 64, 128 + c.toNat % 64],
          by rw [if_neg h1, if_neg h2, if_neg h3], ?_⟩
        unfold utf8Len
        rw [if_neg (by omega), if_neg (by omega), if_neg (by omega)]
        rfl

theorem decodeCharUtf8_encode (c : Char) : decodeCharUtf8 (encodeCharUtf8 c) = c := by
  have hv := charToNat_lt c
  unfold encodeCharUtf8
  by_cases h1 : c.toNat < 128
  · rw [if_pos h1]
    simp only [decodeCharUtf8]
    exact Char.ofNat_toNat c
  · by_cases h2 : c.toNat < 2048
    · rw [if_neg h1, if_pos h2]
      simp only [decodeCharUtf8]
      rw [show (192 + c.toNat / 64 - 192) * 64 + (128 + c.toNat % 64 - 128) = c.toNat by omega]
      exact Char.ofNat_toNat c
    · by_cases h3 : c.toNat < 65536
      · rw [if_neg h1, if_neg h2, if_pos h3]
        simp only [decodeCharUtf8]
        rw [show ((224 + c.toNat / 4096 - 224) * 64 + (128 + c.toNat / 64 % 64 - 128)) * 64 +
              (128 + c.toNat % 64 - 128) = c.toNat by omega]
        exact Char.ofNat_toNat c
      · rw [if_neg h1, if_neg h2, if_neg h3]
        simp only [decodeCharUtf8]
        rw [show (((240 + c.toNat / 262144 - 240) * 64 + (128 + c.toNat / 4096 % 64 - 128)) * 64 +
              (128 + c.toNat / 64 % 64 - 128)) * 64 + (128 + c.toNat % 64 - 128) = c.toNat by omega]
        exact Char.ofNat_toNat c

theorem utf8DecodeLoop_nil : utf8DecodeLoop [] = ([], []) := by
  simp [utf8DecodeLoop]

theorem utf8DecodeLoop_cons_complete (b : Nat) (rest : List Nat)
    (h : utf8Len b ≤ rest.length + 1) :
    utf8DecodeLoop (b :: rest) =
      (decodeCharUtf8 ((b :: rest).take (utf8Len b)) ::
          (utf8DecodeLoop ((b :: rest).drop (utf8Len b))).1,
        (utf8DecodeLoop ((b :: rest).drop (utf8Len b))).2) := by
  conv_lhs => rw [utf8DecodeLoop]
  rw [if_pos h]

theorem utf8DecodeLoop_cons_incomplete (b : Nat) (rest : List Nat)
    (h : ¬ utf8Len b ≤ rest.length + 1) :
    utf8DecodeLoop (b :: rest) = ([], b :: rest) := by
  conv_lhs => rw [utf8DecodeLoop]
  rw [if_neg h]

theorem utf8DecodeLoop_encode_cons (c : Char) (t : List Nat) :
    utf8DecodeLoop (encodeCharUtf8 c ++ t) =
      (c :: (utf8DecodeLoop t).1, (utf8DecodeLoop t).2) := by
  obtain ⟨b, bs, henc, hlen⟩ := encodeCharUtf8_shape c
  rw [henc, List.cons_append]
  have hle : utf8Len b ≤ (bs ++ t).length + 1 := by
    rw [hlen]
    simp
  have htake : (b :: (bs ++ t)).take (utf8Len b) = b :: bs := by
    rw [hlen, List.take_succ_cons, List.take_left]
  have hdrop : (b :: (bs ++ t)).drop (utf8Len b) = t := by
    rw [hlen, List.drop_succ_cons, List.drop_left]
  rw [utf8DecodeLoop_cons_complete b (bs ++ t) hle, htake, hdrop, ← henc,
    decodeCharUtf8_encode]

/-- The pending bytes form a strict prefix of the encoding of the next
character of the not-yet-decoded text (or are empty). -/
def IncompleteTail (t : List Nat) (s2 : List Char) : Prop :=
  t = [] ∨ ∃ c cs, s2 = c :: cs ∧ ∃ u, u ≠ [] ∧ encodeCharUtf8 c = t ++ u

theorem utf8DecodeLoop_incomplete (t : List Nat) (s2 : List Char)
    (h : IncompleteTail t s2) : utf8DecodeLoop t = ([], t) := by
  rcases h with rfl | ⟨c, cs, rfl, u, hu, henc⟩
  · exact utf8DecodeLoop_nil
  · cases t with
    | nil => exact utf8DecodeLoop_nil
    | cons b bs =>
      obtain ⟨b2, bs2, henc2, hlen2⟩ := encodeCharUtf8_shape c
      rw [henc2] at henc
      have hb : b2 = b := by
        have := congrArg (fun l => l.headD 0) henc
        simpa using this
      have hlenEq : bs2.length = bs.length + u.length := by
        have := congrArg List.length henc
        simp at this
        omega
      have hupos : 0 < u.length := List.length_pos.mpr hu
      exact utf8DecodeLoop_cons_incomplete b bs (by rw [← hb, hlen2]; omega)

theorem utf8DecodeLoop_encodeStr (s1 : List Char) (t : List Nat) (s2 : List Char)
    (h : IncompleteTail t s2) : utf8DecodeLoop (encodeUtf8 s1 ++ t) = (s1, t) := by
  induction s1 with
  | nil =>
    simpa [encodeUtf8] using utf8DecodeLoop_incomplete t s2 h
  | cons c cs ih =>
    have he : encodeUtf8 (c :: cs) = encodeCharUtf8 c ++ encodeUtf8 cs := by
      simp [encodeUtf8]
    rw [he, List.append_assoc, utf8DecodeLoop_encode_cons, ih]

theorem append_eq_short {α : Type} (p q l x : List α) (h : p ++ q = l ++ x)
    (hlen : p.length < l.length) : ∃ u, u ≠ [] ∧ l = p ++ u := by
  induction p generalizing l with
  | nil =>
    refine ⟨l, ?_, rfl⟩
    intro hl
    rw [hl] at hlen
    simp at hlen
  | cons a p ih =>
    cases l with
    | nil => simp at hlen
    | cons b l2 =>
      simp only [List.cons_append, List.cons.injEq] at h
      obtain ⟨rfl, h2⟩ := h
      obtain ⟨u, hu, hl⟩ := ih l2 h2 (by simpa using hlen)
      exact ⟨u, hu, by rw [List.cons_append, hl]⟩

theorem append_eq_long {α : Type} (p q l x : List α) (h : p ++ q = l ++ x)
    (hlen : l.length ≤ p.length) : ∃ p2, p = l ++ p2 ∧ p2 ++ q = x := by
  induction l generalizing p with
  | nil => exact ⟨p, by simp, by simpa using h⟩
  | cons b l2 ih =>
    cases p with
    | nil => simp at hlen
    | cons a p2 =>
      simp only [List.cons_append, List.cons.injEq] at h
      obtain ⟨rfl, h2⟩ := h
      obtain ⟨p3, hp, hr⟩ := ih p2 h2 (by simpa using hlen)
      exact ⟨p3, by rw [List.cons_append, hp], hr⟩

theorem encode_prefix_decompose (s : List Char) (p q : List Nat)
    (h : p ++ q = encodeUtf8 s) :
    ∃ s1 s2 t, s = s1 ++ s2 ∧ p = encodeUtf8 s1 ++ t ∧ IncompleteTail t s2 := by
  induction s generalizing p q with
  | nil =>
    have hp : p = [] := by
      have : p ++ q = [] := by simpa [encodeUtf8] using h
      exact (List.append_eq_nil.mp this).1
    exact ⟨[], [], [], rfl, by simp [encodeUtf8, hp], Or.inl rfl⟩
  | cons c cs ih =>
    have he : encodeUtf8 (c :: cs) = encodeCharUtf8 c ++ encodeUtf8 cs := by
      simp [encodeUtf8]
    rw [he] at h
    by_cases hl : p.length < (encodeCharUtf8 c).length
    · obtain ⟨u, hu, hcu⟩ := append_eq_short p q (encodeCharUtf8 c) (encodeUtf8 cs) h hl
      exact ⟨[], c :: cs, p, rfl, by simp [encodeUtf8],
        Or.inr ⟨c, cs, rfl, u, hu, hcu⟩⟩
    · obtain ⟨p2, hp, hrest⟩ :=
        append_eq_long p q (encodeCharUtf8 c) (encodeUtf8 cs) h (by omega)
      obtain ⟨s1, s2, t, hs, hp2, hit⟩ := ih p2 q hrest
      refine ⟨c :: s1, s2, t, by rw [hs]; rfl, ?_, hit⟩
      rw [hp, hp2]
      simp [encodeUtf8]

theorem encodeCharUtf8_ne_nil (c : Char) : encodeCharUtf8 c ≠ [] := by
  obtain ⟨b, bs, henc, _⟩ := encodeCharUtf8_shape c
  simp [henc]

theorem encodeUtf8_eq_nil (s : List Char) (h : encodeUtf8 s = []) : s = [] := by
  cases s with
  | nil => rfl
  | cons c cs =>
    exfalso
    have he : encodeUtf8 (c :: cs) = encodeCharUtf8 c ++ encodeUtf8 cs := by
      simp [encodeUtf8]
    rw [he] at h
    exact encodeCharUtf8_ne_nil c (List.append_eq_nil.mp h).1

theorem incomplete_full (s1 s2 : List Char) (t : List Nat) (hit : IncompleteTail t s2)
    (h : encodeUtf8 s1 ++ t = encodeUtf8 (s1 ++ s2)) : t = [] ∧ s2 = [] := by
  have hsplit : encodeUtf8 (s1 ++ s2) = encodeUtf8 s1 ++ encodeUtf8 s2 := by
    simp [encodeUtf8]
  rw [hsplit] at h
  have ht : t = encodeUtf8 s2 := List.append_cancel_left h
  rcases hit with rfl | ⟨c, cs, rfl, u, hu, henc⟩
  · exact ⟨rfl, encodeUtf8_eq_nil s2 ht.symm⟩
  · exfalso
    have he : encodeUtf8 (c :: cs) = encodeCharUtf8 c ++ encodeUtf8 cs := by
      simp [encodeUtf8]
    rw [he, henc] at ht
    have hlt := congrArg List.length ht
    have hupos : 0 < u.length := List.length_pos.mpr hu
    simp only [List.length_append] at hlt
    omega

/-! ### The consumer state as a function of the decoded text alone -/

theorem encodeUtf8_append (a b : List Char) :
    encodeUtf8 (a ++ b) = encodeUtf8 a ++ encodeUtf8 b := by
  simp [encodeUtf8]

theorem splitNl_dropLast_eq (x : List Char) : (splitNl x).dropLast = (nlSplit x).1 := by
  rw [nlSplit_eq_splitNl]

theorem splitNl_getLastD_eq (x : List Char) : (splitNl x).getLastD [] = (nlSplit x).2 := by
  rw [nlSplit_eq_splitNl]

theorem processRange_spec (s1 : List Char) (t : List Nat) (cs0 : ConsumerState)
    (f : List Nat) (u1 : List Char) (t2 : List Nat)
    (hdec : utf8DecodeLoop (t ++ f) = (u1, t2)) :
    processRange ⟨t, (nlSplit s1).2, (nlSplit s1).1.foldl handleLine cs0⟩ f =
      ⟨t2, (nlSplit (s1 ++ u1)).2, (nlSplit (s1 ++ u1)).1.foldl handleLine cs0⟩ := by
  have hb : nlSplit ((nlSplit s1).2 ++ u1) = feedBuf (nlSplit s1).2 (nlSplit u1) := by
    rw [nlSplit_append ((nlSplit s1).2) u1,
      nlSplit_no_newline ((nlSplit s1).2) (nlSplit_buf_no_newline s1)]
    simp
  have hmain := nlSplit_append s1 u1
  simp only [processRange]
  rw [hdec]
  simp only [splitNl_dropLast_eq, splitNl_getLastD_eq, hb, hmain, List.foldl_append]

theorem consume_invariant (frags : List (List Nat)) :
    ∀ (s1 : List Char) (t : List Nat) (s2 : List Char) (cs0 : ConsumerState),
      IncompleteTail t s2 →
      encodeUtf8 s1 ++ t ++ frags.flatten = encodeUtf8 (s1 ++ s2) →
      frags.foldl processRange ⟨t, (nlSplit s1).2, (nlSplit s1).1.foldl handleLine cs0⟩ =
        ⟨[], (nlSplit (s1 ++ s2)).2, (nlSplit (s1 ++ s2)).1.foldl handleLine cs0⟩ := by
  induction frags with
  | nil =>
    intro s1 t s2 cs0 hit henc
    simp only [List.flatten_nil, List.append_nil] at henc
    obtain ⟨rfl, rfl⟩ := incomplete_full s1 s2 t hit henc
    simp
  | cons f frags ih =>
    intro s1 t s2 cs0 hit henc
    have hcancel : (t ++ f) ++ frags.flatten = encodeUtf8 s2 := by
      rw [encodeUtf8_append] at henc
      have h2 : encodeUtf8 s1 ++ (t ++ (f ++ frags.flatten)) =
          encodeUtf8 s1 ++ encodeUtf8 s2 := by
        rw [← henc]
        simp [List.flatten_cons]
      have h3 := List.append_cancel_left h2
      rw [← h3]
      simp
    obtain ⟨u1, u2, t2, hs2, htf, hit2⟩ :=
      encode_prefix_decompose s2 (t ++ f) frags.flatten hcancel
    have hdec : utf8DecodeLoop (t ++ f) = (u1, t2) := by
      rw [htf]
      exact utf8DecodeLoop_encodeStr u1 t2 u2 hit2
    rw [List.foldl_cons, processRange_spec s1 t cs0 f u1 t2 hdec]
    have hassoc : (s1 ++ u1) ++ u2 = s1 ++ s2 := by
      rw [List.append_assoc, ← hs2]
    have henc2 : encodeUtf8 (s1 ++ u1) ++ t2 ++ frags.flatten =
        encodeUtf8 ((s1 ++ u1) ++ u2) := by
      calc encodeUtf8 (s1 ++ u1) ++ t2 ++ frags.flatten
          = encodeUtf8 s1 ++ ((encodeUtf8 u1 ++ t2) ++ frags.flatten) := by
            rw [encodeUtf8_append]
            simp [List.append_assoc]
        _ = encodeUtf8 s1 ++ ((t ++ f) ++ frags.flatten) := by rw [← htf]
        _ = encodeUtf8 s1 ++ encodeUtf8 s2 := by rw [hcancel]
        _ = encodeUtf8 (s1 ++ s2) := (encodeUtf8_append s1 s2).symm
        _ = encodeUtf8 ((s1 ++ u1) ++ u2) := by rw [hassoc]
    have hrec := ih (s1 ++ u1) t2 u2 cs0 hit2 henc2
    rw [hrec, hassoc]

theorem consumeFrags_eq (frags : List (List Nat)) (s : List Char)
    (h : frags.flatten = encodeUtf8 s) :
    frags.foldl processRange initStream =
      ⟨[], (nlSplit s).2, (nlSplit s).1.foldl handleLine initConsumer⟩ := by
  have h0 : encodeUtf8 [] ++ [] ++ frags.flatten = encodeUtf8 ([] ++ s) := by
    simpa [encodeUtf8] using h
  have hmain := consume_invariant frags [] [] s initConsumer (Or.inl rfl) h0
  have hini : (⟨[], (nlSplit ([] : List Char)).2,
      (nlSplit ([] : List Char)).1.foldl handleLine initConsumer⟩ : StreamState) =
      initStream := rfl
  rw [hini] at hmain
  simpa using hmain

/-- C2: feeding the same well-formed UTF-8 record byte stream to the read
loop as any two sequences of byte ranges (split anywhere, including mid
multi-byte character or mid line) produces an identical final consumer
view (answer and ordered status/error list) and an identical reported
completion answer. -/
theorem byteFragmentation_invariant (fr1 fr2 : List (List Nat)) (s : List Char)
    (h1 : fr1.flatten = encodeUtf8 s) (h2 : fr2.flatten = encodeUtf8 s) :
    (fetchStreamRun fr1 none).state.cs = (fetchStreamRun fr2 none).state.cs ∧
    (fetchStreamRun fr1 none).completionAnswer =
      (fetchStreamRun fr2 none).completionAnswer := by
  have e : fr1.foldl processRange initStream = fr2.foldl processRange initStream := by
    rw [consumeFrags_eq fr1 s h1, consumeFrags_eq fr2 s h2]
  constructor <;> simp [fetchStreamRun, readLoop_none, obsCancelled, e]

/-- One framed `text` record whose payload is the Korean syllable 가
(U+AC00, three UTF-8 bytes), newline-terminated. -/
def koreanJsonLine : List Char :=
  '\x7b' :: '\"' :: 'e' :: 'v' :: 'e' :: 'n' :: 't' :: '\"' :: ':' :: '\"' :: 't' :: 'e' :: 'x' :: 't' :: '\"' :: ',' ::
  '\"' :: 'p' :: 'a' :: 'y' :: 'l' :: 'o' :: 'a' :: 'd' :: '\"' :: ':' :: '\"' :: '가' :: '\"' :: '\x7d' :: '\n' :: []

def koreanBytes : List Nat := encodeUtf8 koreanJsonLine

theorem byteFragmentation_invariant_witness :
    ([koreanBytes] : List (List Nat)).flatten = encodeUtf8 koreanJsonLine ∧
    ([koreanBytes.take 28, koreanBytes.drop 28] : List (List Nat)).flatten =
      encodeUtf8 koreanJsonLine ∧
    ((fetchStreamRun [koreanBytes] none).state.cs =
        (fetchStreamRun [koreanBytes.take 28, koreanBytes.drop 28] none).state.cs ∧
      (fetchStreamRun [koreanBytes] none).completionAnswer =
        (fetchStreamRun [koreanBytes.take 28, koreanBytes.drop 28] none).completionAnswer) :=
  ⟨by simp [koreanBytes],
   by simp [koreanBytes],
   byteFragmentation_invariant [koreanBytes] [koreanBytes.take 28, koreanBytes.drop 28]
     koreanJsonLine (by simp [koreanBytes]) (by simp [koreanBytes])⟩

end LLex
